import Mathlib

/-!
Shallow embedding of `src/transcoding.py`.

The program is a batch video transcoder: `get_video_info` probes a file via
`ffmpeg.probe`, `encode_video` invokes ffmpeg with a fixed parameter profile,
`create_directory` wraps `os.makedirs`, and `process_directory` enumerates
`*.mp4` files, skips those whose output already exists, probes, and encodes.

Modelling choices:
- External calls (`ffmpeg.probe`, the ffmpeg run, `os.makedirs`) are oracles
  collected in an `Env` record; an `Except.error` value stands for the call
  raising `ffmpeg.Error` (resp. `OSError`), carrying the diagnostic text.
- The filesystem is the list of existing file paths (a path is a plain
  string); `Path.exists()` is list membership.  Directory entries of the
  input directory are given as a list of names relative to the input
  directory; a name containing a slash stands for an entry inside a
  subdirectory, which `Path.glob` with the single-component pattern
  `"*.mp4"` never reaches.
- Python exceptions that escape a function are the `Except.error` side of the
  function's result (`PyExc`); a result of `Except.ok` is a normal return.
- ffprobe's numeric metadata fields are modelled as already-numeric values
  (`Int`), abstracting the `int()` / `float()` conversions of well-formed
  JSON values, which no property here depends on.
- Console prints and wall-clock timing have no observable effect on the
  properties considered; the observable actions of a run are recorded in a
  trace of `Event`s instead.
-/

namespace Transcoding

/-- One stream record of the probe metadata (only the fields the program
reads are modelled). -/
structure StreamInfo where
  codec_type : String
  width : Int
  height : Int
  deriving DecidableEq, Repr

/-- Probe metadata: the `streams` array and the format-level duration. -/
structure ProbeData where
  streams : List StreamInfo
  duration : Int
  deriving DecidableEq, Repr

/-- The dictionary returned by `get_video_info` on success. -/
structure MediaInfo where
  width : Int
  height : Int
  duration : Int
  deriving DecidableEq, Repr

/-- A Python exception that escapes `get_video_info`: the `except` clause at
line 17 of the source matches only `ffmpeg.Error`, so `StopIteration` raised
by `next()` on an exhausted generator (line 11) is not caught. -/
inductive PyExc where
  | stopIteration
  deriving DecidableEq, Repr

/-- The keyword arguments passed to `ffmpeg.output` in `encode_video`
(source lines 27-38). -/
structure EncodingProfile where
  vcodec : String
  acodec : String
  profile_v : String
  level_v : String
  preset : String
  crf : Nat
  b_a : String
  movflags : String
  deriving DecidableEq, Repr

/-- One invocation of the external transcoder, as assembled by
`encode_video`: input path, output path, the keyword profile, and whether
`.overwrite_output()` was applied (source lines 25-41). -/
structure EncodeCall where
  input_path : String
  output_path : String
  profile : EncodingProfile
  overwrite : Bool
  deriving DecidableEq, Repr

/-- Behaviour of the external world during one run: the result of
`ffmpeg.probe` per path, the result of running an assembled ffmpeg command,
the result of the single `os.makedirs` call, and whether a failed ffmpeg run
leaves a partly written file at the destination. -/
structure Env where
  probe : String → Except String ProbeData
  run : EncodeCall → Except String Unit
  makedirsResult : Except String Unit
  leftoverOnFail : EncodeCall → Bool

/-- Observable actions of a run, in order: successful creation of the output
directory, skipping a file whose output exists, calling `ffmpeg.probe`, and
invoking the transcoder (recording the set of files existing at the moment
of invocation). -/
inductive Event where
  | mkdirE (path : String)
  | skipE (output_file : String)
  | probeE (path : String)
  | encodeE (call : EncodeCall) (filesAtCall : List String)
  deriving DecidableEq, Repr

/-- Result of a run (or of the per-file loop): the event trace, the final
set of existing files, and the exception that aborted the run, if any. -/
structure RunResult where
  events : List Event
  files : List String
  raised : Option PyExc
  deriving DecidableEq, Repr

/-- The first stream whose declared type is "video":
`next(s for s in probe["streams"] if s["codec_type"] == "video")`
(source line 11), with `none` for the exhausted case. -/
def findVideoStream (streams : List StreamInfo) : Option StreamInfo :=
  streams.find? (fun s => s.codec_type == "video")

/-- Embeds `get_video_info` (source lines 7-19).  The argument is the result
of the `ffmpeg.probe` call on the file path.  An `ffmpeg.Error` from the
probe is caught: the function logs and returns `None` (`Except.ok none`).
If the probe succeeds but no stream has codec type "video", `next()` raises
`StopIteration`, which the handler does not match, so it escapes
(`Except.error`). -/
def get_video_info (probeResult : Except String ProbeData) :
    Except PyExc (Option MediaInfo) :=
  match probeResult with
  | Except.error _stderr => Except.ok none
  | Except.ok probe =>
    match findVideoStream probe.streams with
    | none => Except.error PyExc.stopIteration
    | some video_info =>
      Except.ok (some { width := video_info.width, height := video_info.height,
                        duration := probe.duration })

/-- The ffmpeg invocation assembled by `encode_video` (source lines 25-41):
fixed keyword profile, plus `.overwrite_output()`. -/
def encode_video_call (input_path output_path : String) : EncodeCall :=
  { input_path := input_path
    output_path := output_path
    profile := { vcodec := "libx264", acodec := "aac", profile_v := "main",
                 level_v := "4.0", preset := "slow", crf := 23,
                 b_a := "128k", movflags := "+faststart" }
    overwrite := true }

/-- Embeds `encode_video` (source lines 22-48): assembles the call, runs it,
returns `True` on success; an `ffmpeg.Error` from the run is caught, logged,
and turned into `False`. -/
def encode_video (run : EncodeCall → Except String Unit)
    (input_path output_path : String) : Bool :=
  match run (encode_video_call input_path output_path) with
  | Except.ok _ => true
  | Except.error _stderr => false

/-- Embeds `create_directory` (source lines 51-58): `True` if the
`os.makedirs(..., exist_ok=True)` call succeeded, `False` if it raised. -/
def create_directory (makedirsResult : Except String Unit) : Bool :=
  match makedirsResult with
  | Except.ok _ => true
  | Except.error _e => false

/-- The string form of `input_dir / name` for an immediate child `name`
(the `str(input_file)` of source lines 102 and 112). -/
def inPath (input_directory name : String) : String :=
  input_directory ++ "/" ++ name

/-- The string form of `output_dir / f"encoded_{name}"` (source line 90). -/
def outPath (output_directory name : String) : String :=
  output_directory ++ "/" ++ ("encoded_" ++ name)

/-- Character-level `String.endsWith`: the characters of `suf` are a suffix
of the characters of `s` (exact, hence case-sensitive, comparison). -/
def endsWithChars (s suf : String) : Bool :=
  suf.data.isSuffixOf s.data

/-- Character-level `String.contains`: some character of `s` equals `c`. -/
def containsChar (s : String) (c : Char) : Bool :=
  s.data.contains c

/-- Embeds `input_dir.glob("*.mp4")` (source line 77) over the directory
entries: the pattern has a single component, so only immediate children are
candidates (an entry containing a slash lies in a subdirectory and is never
reached), and `fnmatch` of `*.mp4` against a name is a case-sensitive match
of the whole name, i.e. the name ends with the characters ".mp4".  Listing
order is preserved. -/
def globMp4 (entries : List String) : List String :=
  entries.filter (fun name => !containsChar name '/' && endsWithChars name ".mp4")

/-- Embeds one iteration of the loop body of `process_directory` (source
lines 89-117) on file `name`, given the files currently existing. -/
def processFile (env : Env) (input_directory output_directory name : String)
    (files : List String) : RunResult :=
  if outPath output_directory name ∈ files then
    { events := [Event.skipE (outPath output_directory name)],
      files := files, raised := none }
  else
    match get_video_info (env.probe (inPath input_directory name)) with
    | Except.error exc =>
      { events := [Event.probeE (inPath input_directory name)],
        files := files, raised := some exc }
    | Except.ok _info =>
      if encode_video env.run (inPath input_directory name)
          (outPath output_directory name) then
        { events := [Event.probeE (inPath input_directory name),
                     Event.encodeE (encode_video_call (inPath input_directory name)
                       (outPath output_directory name)) files],
          files := outPath output_directory name :: files, raised := none }
      else
        { events := [Event.probeE (inPath input_directory name),
                     Event.encodeE (encode_video_call (inPath input_directory name)
                       (outPath output_directory name)) files],
          files := if env.leftoverOnFail (encode_video_call
                       (inPath input_directory name)
                       (outPath output_directory name))
                   then outPath output_directory name :: files else files,
          raised := none }

/-- The per-file loop of `process_directory` (source lines 89-117): runs
`processFile` on each enumerated name in order; an uncaught exception from a
file aborts the loop at that file. -/
def processLoop (env : Env) (input_directory output_directory : String) :
    List String → List String → RunResult
  | [], files => { events := [], files := files, raised := none }
  | name :: rest, files =>
    let step := processFile env input_directory output_directory name files
    match step.raised with
    | some _ => step
    | none =>
      let restOut := processLoop env input_directory output_directory rest step.files
      { events := step.events ++ restOut.events,
        files := restOut.files, raised := restOut.raised }

/-- Embeds `process_directory` (source lines 61-117).  `inputDirValid`
combines `input_dir.exists() and input_dir.is_dir()`; `entries` is the
directory listing of the input directory; `files0` is the set of files
existing at the start of the run. -/
def process_directory (env : Env) (inputDirValid : Bool)
    (entries : List String) (input_directory output_directory : String)
    (files0 : List String) : RunResult :=
  if !inputDirValid then
    { events := [], files := files0, raised := none }
  else if !create_directory env.makedirsResult then
    { events := [], files := files0, raised := none }
  else if (globMp4 entries).length = 0 then
    { events := [Event.mkdirE output_directory], files := files0, raised := none }
  else
    let out := processLoop env input_directory output_directory
                 (globMp4 entries) files0
    { events := Event.mkdirE output_directory :: out.events,
      files := out.files, raised := out.raised }

/-- A probe outcome that cannot raise an uncaught exception out of
`get_video_info`: either the probe call itself errors (caught), or its
metadata contains a video stream. -/
def probeSafe (env : Env) (p : String) : Bool :=
  match env.probe p with
  | Except.error _ => true
  | Except.ok pd => (findVideoStream pd.streams).isSome

/-- Recognizes a transcoder invocation for input file `name` of the input
directory. -/
def isEncodeFor (input_directory name : String) : Event → Bool
  | Event.encodeE c _ => c.input_path == inPath input_directory name
  | _ => false

/-! ## Basic lemmas about the embedding -/

theorem string_append_cancel_left (s a b : String) (h : s ++ a = s ++ b) :
    a = b := by
  have h1 := congrArg String.data h
  simp only [String.data_append] at h1
  exact String.ext (List.append_cancel_left h1)

theorem inPath_inj (d a b : String) (h : inPath d a = inPath d b) : a = b :=
  string_append_cancel_left (d ++ "/") a b h

theorem outPath_inj (d a b : String) (h : outPath d a = outPath d b) : a = b :=
  string_append_cancel_left "encoded_" a b
    (string_append_cancel_left (d ++ "/") _ _ h)

theorem get_video_info_ok_of_probeSafe (env : Env) (p : String)
    (h : probeSafe env p = true) :
    ∃ o, get_video_info (env.probe p) = Except.ok o := by
  unfold probeSafe at h
  cases he : env.probe p with
  | error s => exact ⟨none, by simp [get_video_info, he]⟩
  | ok pd =>
    rw [he] at h
    obtain ⟨v, hv⟩ := Option.isSome_iff_exists.mp h
    exact ⟨some { width := v.width, height := v.height, duration := pd.duration },
           by simp [get_video_info, he, hv]⟩

theorem encode_video_true_of_run_ok (run : EncodeCall → Except String Unit)
    (i o : String) (h : run (encode_video_call i o) = Except.ok ()) :
    encode_video run i o = true := by
  simp [encode_video, h]

theorem encode_video_false_of_run_error (run : EncodeCall → Except String Unit)
    (i o s : String) (h : run (encode_video_call i o) = Except.error s) :
    encode_video run i o = false := by
  simp [encode_video, h]

/-! Branch rewriting lemmas for `processFile` and `processLoop`. -/

theorem processFile_skip (env : Env) (inp out name : String)
    (files : List String) (h : outPath out name ∈ files) :
    processFile env inp out name files =
      { events := [Event.skipE (outPath out name)], files := files,
        raised := none } := by
  simp [processFile, h]

theorem processFile_raise (env : Env) (inp out name : String)
    (files : List String) (exc : PyExc) (h : outPath out name ∉ files)
    (hg : get_video_info (env.probe (inPath inp name)) = Except.error exc) :
    processFile env inp out name files =
      { events := [Event.probeE (inPath inp name)], files := files,
        raised := some exc } := by
  simp [processFile, h, hg]

theorem processFile_encode_ok (env : Env) (inp out name : String)
    (files : List String) (o : Option MediaInfo) (h : outPath out name ∉ files)
    (hg : get_video_info (env.probe (inPath inp name)) = Except.ok o)
    (hr : env.run (encode_video_call (inPath inp name) (outPath out name)) =
            Except.ok ()) :
    processFile env inp out name files =
      { events := [Event.probeE (inPath inp name),
                   Event.encodeE (encode_video_call (inPath inp name)
                     (outPath out name)) files],
        files := outPath out name :: files, raised := none } := by
  simp [processFile, h, hg, encode_video_true_of_run_ok env.run _ _ hr]

theorem processFile_encode_fail (env : Env) (inp out name : String)
    (files : List String) (o : Option MediaInfo) (s : String)
    (h : outPath out name ∉ files)
    (hg : get_video_info (env.probe (inPath inp name)) = Except.ok o)
    (hr : env.run (encode_video_call (inPath inp name) (outPath out name)) =
            Except.error s) :
    processFile env inp out name files =
      { events := [Event.probeE (inPath inp name),
                   Event.encodeE (encode_video_call (inPath inp name)
                     (outPath out name)) files],
        files := if env.leftoverOnFail (encode_video_call (inPath inp name)
                     (outPath out name))
                 then outPath out name :: files else files,
        raised := none } := by
  simp [processFile, h, hg, encode_video_false_of_run_error env.run _ _ _ hr]

theorem processLoop_nil (env : Env) (inp out : String) (files : List String) :
    processLoop env inp out [] files =
      { events := [], files := files, raised := none } := rfl

theorem processLoop_cons_of_step (env : Env) (inp out name : String)
    (rest : List String) (files : List String) (evs : List Event)
    (files1 : List String)
    (hstep : processFile env inp out name files =
      { events := evs, files := files1, raised := none }) :
    processLoop env inp out (name :: rest) files =
      { events := evs ++ (processLoop env inp out rest files1).events,
        files := (processLoop env inp out rest files1).files,
        raised := (processLoop env inp out rest files1).raised } := by
  simp [processLoop, hstep]

theorem processLoop_cons_of_raise (env : Env) (inp out name : String)
    (rest : List String) (files : List String) (evs : List Event)
    (files1 : List String) (exc : PyExc)
    (hstep : processFile env inp out name files =
      { events := evs, files := files1, raised := some exc }) :
    processLoop env inp out (name :: rest) files =
      { events := evs, files := files1, raised := some exc } := by
  simp [processLoop, hstep]

/-- Reduction of `process_directory` on a valid input directory and a
successful `os.makedirs`: the run is the output-directory creation followed
by the per-file loop over the glob matches. -/
theorem process_directory_run (env : Env) (entries : List String)
    (inp out : String) (files0 : List String)
    (hm : env.makedirsResult = Except.ok ()) :
    process_directory env true entries inp out files0 =
      { events := Event.mkdirE out ::
          (processLoop env inp out (globMp4 entries) files0).events,
        files := (processLoop env inp out (globMp4 entries) files0).files,
        raised := (processLoop env inp out (globMp4 entries) files0).raised } := by
  unfold process_directory
  rw [hm]
  by_cases h : (globMp4 entries).length = 0
  · have he : globMp4 entries = [] := List.length_eq_zero.mp h
    simp [create_directory, h, he, processLoop_nil]
  · simp [create_directory, h]

/-- Every run is either one of the degenerate early returns (invalid input
directory, failed output-directory creation) leaving the world untouched, or
the `process_directory_run` shape. -/
theorem process_directory_cases (env : Env) (valid : Bool)
    (entries : List String) (inp out : String) (files0 : List String) :
    process_directory env valid entries inp out files0 =
      { events := [], files := files0, raised := none } ∨
    process_directory env valid entries inp out files0 =
      { events := Event.mkdirE out ::
          (processLoop env inp out (globMp4 entries) files0).events,
        files := (processLoop env inp out (globMp4 entries) files0).files,
        raised := (processLoop env inp out (globMp4 entries) files0).raised } := by
  cases valid with
  | false => left; simp [process_directory]
  | true =>
    cases hm : env.makedirsResult with
    | error s => left; simp [process_directory, create_directory, hm]
    | ok u =>
      cases u
      right
      exact process_directory_run env entries inp out files0 hm

/-! ## Invariants of the per-file loop -/

theorem processLoop_mono (env : Env) (inp out : String) :
    ∀ (names files : List String) (f : String), f ∈ files →
      f ∈ (processLoop env inp out names files).files := by
  intro names
  induction names with
  | nil => intro files f hf; simpa [processLoop_nil] using hf
  | cons name rest ih =>
    intro files f hf
    by_cases hmem : outPath out name ∈ files
    · rw [processLoop_cons_of_step env inp out name rest files _ _
        (processFile_skip env inp out name files hmem)]
      exact ih files f hf
    · cases hg : get_video_info (env.probe (inPath inp name)) with
      | error exc =>
        rw [processLoop_cons_of_raise env inp out name rest files _ _ exc
          (processFile_raise env inp out name files exc hmem hg)]
        exact hf
      | ok o =>
        cases hrun : env.run (encode_video_call (inPath inp name)
            (outPath out name)) with
        | ok u =>
          cases u
          rw [processLoop_cons_of_step env inp out name rest files _ _
            (processFile_encode_ok env inp out name files o hmem hg hrun)]
          exact ih _ f (List.mem_cons_of_mem _ hf)
        | error s =>
          rw [processLoop_cons_of_step env inp out name rest files _ _
            (processFile_encode_fail env inp out name files o s hmem hg hrun)]
          refine ih _ f ?_
          by_cases hl : env.leftoverOnFail (encode_video_call (inPath inp name)
            (outPath out name))
          · simpa [hl] using List.mem_cons_of_mem (outPath out name) hf
          · simpa [hl] using hf

/-- Every event the per-file loop emits is a skip, a probe, or a transcoder
invocation assembled by `encode_video` for one of the enumerated names, and
an invocation is only emitted when its destination was absent from the files
existing at the moment of the call. -/
theorem processLoop_events_shape (env : Env) (inp out : String) :
    ∀ (names files : List String) (e : Event),
      e ∈ (processLoop env inp out names files).events →
      (∃ n ∈ names, e = Event.skipE (outPath out n)) ∨
      (∃ n ∈ names, e = Event.probeE (inPath inp n)) ∨
      (∃ n ∈ names, ∃ fsnap,
        e = Event.encodeE (encode_video_call (inPath inp n) (outPath out n)) fsnap ∧
        outPath out n ∉ fsnap) := by
  intro names
  induction names with
  | nil => intro files e he; simp [processLoop_nil] at he
  | cons name rest ih =>
    intro files e he
    by_cases hmem : outPath out name ∈ files
    · rw [processLoop_cons_of_step env inp out name rest files _ _
        (processFile_skip env inp out name files hmem)] at he
      simp only [List.singleton_append, List.mem_cons] at he
      rcases he with rfl | he2
      · exact Or.inl ⟨name, List.mem_cons_self name rest, rfl⟩
      · rcases ih files e he2 with ⟨n, hn, h⟩ | ⟨n, hn, h⟩ | ⟨n, hn, fsnap, h, hns⟩
        · exact Or.inl ⟨n, List.mem_cons_of_mem _ hn, h⟩
        · exact Or.inr (Or.inl ⟨n, List.mem_cons_of_mem _ hn, h⟩)
        · exact Or.inr (Or.inr ⟨n, List.mem_cons_of_mem _ hn, fsnap, h, hns⟩)
    · cases hg : get_video_info (env.probe (inPath inp name)) with
      | error exc =>
        rw [processLoop_cons_of_raise env inp out name rest files _ _ exc
          (processFile_raise env inp out name files exc hmem hg)] at he
        simp only [List.mem_singleton] at he
        exact Or.inr (Or.inl ⟨name, List.mem_cons_self name rest, he⟩)
      | ok o =>
        have hrest : ∀ files1, e ∈ (processLoop env inp out rest files1).events →
            (∃ n ∈ name :: rest, e = Event.skipE (outPath out n)) ∨
            (∃ n ∈ name :: rest, e = Event.probeE (inPath inp n)) ∨
            (∃ n ∈ name :: rest, ∃ fsnap,
              e = Event.encodeE (encode_video_call (inPath inp n) (outPath out n)) fsnap ∧
              outPath out n ∉ fsnap) := by
          intro files1 he2
          rcases ih files1 e he2 with ⟨n, hn, h⟩ | ⟨n, hn, h⟩ | ⟨n, hn, fsnap, h, hns⟩
          · exact Or.inl ⟨n, List.mem_cons_of_mem _ hn, h⟩
          · exact Or.inr (Or.inl ⟨n, List.mem_cons_of_mem _ hn, h⟩)
          · exact Or.inr (Or.inr ⟨n, List.mem_cons_of_mem _ hn, fsnap, h, hns⟩)
        cases hrun : env.run (encode_video_call (inPath inp name)
            (outPath out name)) with
        | ok u =>
          cases u
          rw [processLoop_cons_of_step env inp out name rest files _ _
            (processFile_encode_ok env inp out name files o hmem hg hrun)] at he
          simp only [List.cons_append, List.nil_append, List.mem_cons] at he
          rcases he with rfl | rfl | he2
          · exact Or.inr (Or.inl ⟨name, List.mem_cons_self name rest, rfl⟩)
          · exact Or.inr (Or.inr ⟨name, List.mem_cons_self name rest, files, rfl, hmem⟩)
          · exact hrest _ he2
        | error s =>
          rw [processLoop_cons_of_step env inp out name rest files _ _
            (processFile_encode_fail env inp out name files o s hmem hg hrun)] at he
          simp only [List.cons_append, List.nil_append, List.mem_cons] at he
          rcases he with rfl | rfl | he2
          · exact Or.inr (Or.inl ⟨name, List.mem_cons_self name rest, rfl⟩)
          · exact Or.inr (Or.inr ⟨name, List.mem_cons_self name rest, files, rfl, hmem⟩)
          · exact hrest _ he2

/-- When every probe is safe and the external transcoder always succeeds,
the loop raises nothing and the output of every enumerated name exists
afterwards. -/
theorem processLoop_allOk (env : Env) (inp out : String)
    (hp : ∀ p, probeSafe env p = true)
    (hr : ∀ c, env.run c = Except.ok ()) :
    ∀ (names files : List String),
      (processLoop env inp out names files).raised = none ∧
      ∀ n ∈ names, outPath out n ∈ (processLoop env inp out names files).files := by
  intro names
  induction names with
  | nil => intro files; simp [processLoop_nil]
  | cons name rest ih =>
    intro files
    by_cases hmem : outPath out name ∈ files
    · rw [processLoop_cons_of_step env inp out name rest files _ _
        (processFile_skip env inp out name files hmem)]
      refine ⟨(ih files).1, ?_⟩
      intro n hn
      rcases List.mem_cons.mp hn with rfl | hn2
      · exact processLoop_mono env inp out rest files _ hmem
      · exact (ih files).2 n hn2
    · obtain ⟨o, hg⟩ := get_video_info_ok_of_probeSafe env (inPath inp name) (hp _)
      have hrun := hr (encode_video_call (inPath inp name) (outPath out name))
      rw [processLoop_cons_of_step env inp out name rest files _ _
        (processFile_encode_ok env inp out name files o hmem hg hrun)]
      refine ⟨(ih _).1, ?_⟩
      intro n hn
      rcases List.mem_cons.mp hn with rfl | hn2
      · exact processLoop_mono env inp out rest _ _ (List.mem_cons_self _ _)
      · exact (ih _).2 n hn2

/-- When the output of every enumerated name already exists, the loop is a
pure sequence of skips: no probe, no transcoder invocation, no change to the
filesystem, nothing raised. -/
theorem processLoop_allPresent (env : Env) (inp out : String) :
    ∀ (names files : List String), (∀ n ∈ names, outPath out n ∈ files) →
      processLoop env inp out names files =
        { events := names.map (fun n => Event.skipE (outPath out n)),
          files := files, raised := none } := by
  intro names
  induction names with
  | nil => intro files _; simp [processLoop_nil]
  | cons name rest ih =>
    intro files h
    rw [processLoop_cons_of_step env inp out name rest files _ _
      (processFile_skip env inp out name files (h name (List.mem_cons_self name rest)))]
    rw [ih files (fun n hn => h n (List.mem_cons_of_mem _ hn))]
    simp

/-- When every probe is safe, the loop finishes the whole list, whatever the
transcoder outcomes: nothing is raised, and every enumerated name is either
skipped or probed. -/
theorem processLoop_complete (env : Env) (inp out : String)
    (hp : ∀ p, probeSafe env p = true) :
    ∀ (names files : List String),
      (processLoop env inp out names files).raised = none ∧
      ∀ n ∈ names,
        Event.skipE (outPath out n) ∈ (processLoop env inp out names files).events ∨
        Event.probeE (inPath inp n) ∈ (processLoop env inp out names files).events := by
  intro names
  induction names with
  | nil => intro files; simp [processLoop_nil]
  | cons name rest ih =>
    intro files
    by_cases hmem : outPath out name ∈ files
    · rw [processLoop_cons_of_step env inp out name rest files _ _
        (processFile_skip env inp out name files hmem)]
      refine ⟨(ih files).1, ?_⟩
      intro n hn
      rcases List.mem_cons.mp hn with rfl | hn2
      · left; simp
      · rcases (ih files).2 n hn2 with h1 | h1
        · left; simp [h1]
        · right; simp [h1]
    · obtain ⟨o, hg⟩ := get_video_info_ok_of_probeSafe env (inPath inp name) (hp _)
      cases hrun : env.run (encode_video_call (inPath inp name)
          (outPath out name)) with
      | ok u =>
        cases u
        rw [processLoop_cons_of_step env inp out name rest files _ _
          (processFile_encode_ok env inp out name files o hmem hg hrun)]
        refine ⟨(ih (outPath out name :: files)).1, ?_⟩
        intro n hn
        rcases List.mem_cons.mp hn with rfl | hn2
        · right; simp
        · rcases (ih (outPath out name :: files)).2 n hn2 with h1 | h1
          · left; simp [h1]
          · right; simp [h1]
      | error s =>
        rw [processLoop_cons_of_step env inp out name rest files _ _
          (processFile_encode_fail env inp out name files o s hmem hg hrun)]
        refine ⟨(ih (if env.leftoverOnFail (encode_video_call (inPath inp name)
          (outPath out name)) then outPath out name :: files else files)).1, ?_⟩
        intro n hn
        rcases List.mem_cons.mp hn with rfl | hn2
        · right; simp
        · rcases (ih (if env.leftoverOnFail (encode_video_call (inPath inp name)
            (outPath out name)) then outPath out name :: files else files)).2 n hn2 with h1 | h1
          · left; simp [h1]
          · right; simp [h1]

/-- Provenance of files: anything existing after the loop either existed
before it, or was written by a recorded transcoder invocation whose
destination it is and which found it absent at the moment of the call. -/
theorem processLoop_files_sub (env : Env) (inp out : String) :
    ∀ (names files : List String) (f : String),
      f ∈ (processLoop env inp out names files).files →
      f ∈ files ∨
      ∃ c fsnap, Event.encodeE c fsnap ∈ (processLoop env inp out names files).events ∧
        f = c.output_path ∧ f ∉ fsnap := by
  intro names
  induction names with
  | nil => intro files f hf; simp [processLoop_nil] at hf; exact Or.inl hf
  | cons name rest ih =>
    intro files f hf
    by_cases hmem : outPath out name ∈ files
    · rw [processLoop_cons_of_step env inp out name rest files _ _
        (processFile_skip env inp out name files hmem)] at hf ⊢
      rcases ih files f hf with h1 | ⟨c, fsnap, hc, he, hns⟩
      · exact Or.inl h1
      · exact Or.inr ⟨c, fsnap, by simp [hc], he, hns⟩
    · cases hg : get_video_info (env.probe (inPath inp name)) with
      | error exc =>
        rw [processLoop_cons_of_raise env inp out name rest files _ _ exc
          (processFile_raise env inp out name files exc hmem hg)] at hf ⊢
        exact Or.inl hf
      | ok o =>
        cases hrun : env.run (encode_video_call (inPath inp name)
            (outPath out name)) with
        | ok u =>
          cases u
          rw [processLoop_cons_of_step env inp out name rest files _ _
            (processFile_encode_ok env inp out name files o hmem hg hrun)] at hf ⊢
          rcases ih (outPath out name :: files) f hf with h1 | ⟨c, fsnap, hc, he, hns⟩
          · rcases List.mem_cons.mp h1 with rfl | h2
            · exact Or.inr ⟨encode_video_call (inPath inp name) (outPath out name),
                files, by simp, rfl, hmem⟩
            · exact Or.inl h2
          · exact Or.inr ⟨c, fsnap, by simp [hc], he, hns⟩
        | error s =>
          rw [processLoop_cons_of_step env inp out name rest files _ _
            (processFile_encode_fail env inp out name files o s hmem hg hrun)] at hf ⊢
          rcases ih _ f hf with h1 | ⟨c, fsnap, hc, he, hns⟩
          · by_cases hl : env.leftoverOnFail (encode_video_call (inPath inp name)
              (outPath out name))
            · rw [if_pos hl] at h1
              rcases List.mem_cons.mp h1 with rfl | h2
              · exact Or.inr ⟨encode_video_call (inPath inp name) (outPath out name),
                  files, by simp, rfl, hmem⟩
              · exact Or.inl h2
            · rw [if_neg hl] at h1
              exact Or.inl h1
          · exact Or.inr ⟨c, fsnap, by simp [hc], he, hns⟩

/-- A fresh all-success run: when the enumerated names are distinct, none of
their outputs exists yet, every probe is safe and the transcoder always
succeeds, the loop creates exactly the outputs of the enumerated names. -/
theorem processLoop_fresh_allOk (env : Env) (inp out : String)
    (hp : ∀ p, probeSafe env p = true)
    (hr : ∀ c, env.run c = Except.ok ()) :
    ∀ (names files : List String), names.Nodup →
      (∀ n ∈ names, outPath out n ∉ files) →
      (processLoop env inp out names files).files =
        (names.map (fun n => outPath out n)).reverse ++ files ∧
      (processLoop env inp out names files).raised = none := by
  intro names
  induction names with
  | nil => intro files _ _; simp [processLoop_nil]
  | cons name rest ih =>
    intro files hnd hfresh
    have hmem : outPath out name ∉ files := hfresh name (List.mem_cons_self _ _)
    obtain ⟨o, hg⟩ := get_video_info_ok_of_probeSafe env (inPath inp name) (hp _)
    have hrun := hr (encode_video_call (inPath inp name) (outPath out name))
    rw [processLoop_cons_of_step env inp out name rest files _ _
      (processFile_encode_ok env inp out name files o hmem hg hrun)]
    have hfresh2 : ∀ n ∈ rest, outPath out n ∉ (outPath out name :: files) := by
      intro n hn hmem2
      rcases List.mem_cons.mp hmem2 with he | he2
      · exact (List.nodup_cons.mp hnd).1 (outPath_inj out n name he ▸ hn)
      · exact hfresh n (List.mem_cons_of_mem _ hn) he2
    obtain ⟨h1, h2⟩ := ih (outPath out name :: files) (List.nodup_cons.mp hnd).2 hfresh2
    refine ⟨?_, h2⟩
    rw [h1]
    simp

/-- A file whose output already exists when the loop starts triggers no
probe and no transcoder invocation during the loop. -/
theorem processLoop_skip_no_calls (env : Env) (inp out name : String) :
    ∀ (names files : List String), outPath out name ∈ files →
      Event.probeE (inPath inp name) ∉ (processLoop env inp out names files).events ∧
      ∀ c fsnap, Event.encodeE c fsnap ∈ (processLoop env inp out names files).events →
        c.input_path ≠ inPath inp name := by
  intro names
  induction names with
  | nil => intro files _; simp [processLoop_nil]
  | cons n0 rest ih =>
    intro files hmem
    by_cases hm0 : outPath out n0 ∈ files
    · rw [processLoop_cons_of_step env inp out n0 rest files _ _
        (processFile_skip env inp out n0 files hm0)]
      obtain ⟨ih1, ih2⟩ := ih files hmem
      constructor
      · intro hin
        simp only [List.singleton_append, List.mem_cons] at hin
        rcases hin with h1 | h1
        · exact Event.noConfusion h1
        · exact ih1 h1
      · intro c fsnap hc
        simp only [List.singleton_append, List.mem_cons] at hc
        rcases hc with h1 | h1
        · exact Event.noConfusion h1
        · exact ih2 c fsnap h1
    · have hne : n0 ≠ name := fun he => hm0 (he ▸ hmem)
      have hpne : inPath inp n0 ≠ inPath inp name :=
        fun he => hne (inPath_inj inp n0 name he)
      cases hg : get_video_info (env.probe (inPath inp n0)) with
      | error exc =>
        rw [processLoop_cons_of_raise env inp out n0 rest files _ _ exc
          (processFile_raise env inp out n0 files exc hm0 hg)]
        constructor
        · intro hin
          simp only [List.mem_singleton] at hin
          exact hpne (Event.probeE.inj hin).symm
        · intro c fsnap hc
          simp only [List.mem_singleton] at hc
          exact absurd hc (fun h => Event.noConfusion h)
      | ok o =>
        have hrest : ∀ files1, outPath out name ∈ files1 →
            (Event.probeE (inPath inp name) ∉
              (processLoop env inp out rest files1).events) ∧
            ∀ c fsnap, Event.encodeE c fsnap ∈
                (processLoop env inp out rest files1).events →
              c.input_path ≠ inPath inp name := fun files1 h => ih files1 h
        cases hrun : env.run (encode_video_call (inPath inp n0)
            (outPath out n0)) with
        | ok u =>
          cases u
          rw [processLoop_cons_of_step env inp out n0 rest files _ _
            (processFile_encode_ok env inp out n0 files o hm0 hg hrun)]
          obtain ⟨ih1, ih2⟩ := hrest (outPath out n0 :: files)
            (List.mem_cons_of_mem _ hmem)
          constructor
          · intro hin
            simp only [List.cons_append, List.nil_append, List.mem_cons] at hin
            rcases hin with h1 | h1 | h1
            · exact hpne (Event.probeE.inj h1).symm
            · exact Event.noConfusion h1
            · exact ih1 h1
          · intro c fsnap hc
            simp only [List.cons_append, List.nil_append, List.mem_cons] at hc
            rcases hc with h1 | h1 | h1
            · exact Event.noConfusion h1
            · rw [(Event.encodeE.inj h1).1]
              exact hpne
            · exact ih2 c fsnap h1
        | error s =>
          rw [processLoop_cons_of_step env inp out n0 rest files _ _
            (processFile_encode_fail env inp out n0 files o s hm0 hg hrun)]
          obtain ⟨ih1, ih2⟩ := hrest (if env.leftoverOnFail (encode_video_call
              (inPath inp n0) (outPath out n0))
            then outPath out n0 :: files else files)
            (by by_cases hl : env.leftoverOnFail (encode_video_call (inPath inp n0)
                  (outPath out n0))
                · simpa [hl] using List.mem_cons_of_mem (outPath out n0) hmem
                · simpa [hl] using hmem)
          constructor
          · intro hin
            simp only [List.cons_append, List.nil_append, List.mem_cons] at hin
            rcases hin with h1 | h1 | h1
            · exact hpne (Event.probeE.inj h1).symm
            · exact Event.noConfusion h1
            · exact ih1 h1
          · intro c fsnap hc
            simp only [List.cons_append, List.nil_append, List.mem_cons] at hc
            rcases hc with h1 | h1 | h1
            · exact Event.noConfusion h1
            · rw [(Event.encodeE.inj h1).1]
              exact hpne
            · exact ih2 c fsnap h1

/-- A name that is not among the enumerated ones receives no transcoder
invocation. -/
theorem processLoop_encode_absent (env : Env) (inp out name : String)
    (names files : List String) (hn : name ∉ names) :
    (processLoop env inp out names files).events.filter (isEncodeFor inp name) = [] := by
  rw [List.filter_eq_nil_iff]
  intro e he
  rcases processLoop_events_shape env inp out names files e he with
    ⟨n, hmem, rfl⟩ | ⟨n, hmem, rfl⟩ | ⟨n, hmem, fsnap, rfl, hns⟩
  · simp [isEncodeFor]
  · simp [isEncodeFor]
  · simp only [isEncodeFor, Bool.not_eq_true]
    rw [beq_eq_false_iff_ne]
    intro hbeq
    exact hn (inPath_inj inp n name hbeq ▸ hmem)

/-- With distinct enumerated names, the transcoder is invoked at most once
per input file during the loop. -/
theorem processLoop_encode_once (env : Env) (inp out name : String) :
    ∀ (names files : List String), names.Nodup →
      ((processLoop env inp out names files).events.filter
        (isEncodeFor inp name)).length ≤ 1 := by
  intro names
  induction names with
  | nil => intro files _; simp [processLoop_nil]
  | cons n0 rest ih =>
    intro files hnd
    by_cases hm0 : outPath out n0 ∈ files
    · rw [processLoop_cons_of_step env inp out n0 rest files _ _
        (processFile_skip env inp out n0 files hm0)]
      simpa [isEncodeFor] using ih files (List.nodup_cons.mp hnd).2
    · cases hg : get_video_info (env.probe (inPath inp n0)) with
      | error exc =>
        rw [processLoop_cons_of_raise env inp out n0 rest files _ _ exc
          (processFile_raise env inp out n0 files exc hm0 hg)]
        simp [isEncodeFor]
      | ok o =>
        have hstep : ∀ files1,
            (((Event.probeE (inPath inp n0) ::
               Event.encodeE (encode_video_call (inPath inp n0) (outPath out n0))
                 files :: (processLoop env inp out rest files1).events).filter
              (isEncodeFor inp name)).length ≤ 1) := by
          intro files1
          by_cases hne : n0 = name
          · subst hne
            have habs : n0 ∉ rest := (List.nodup_cons.mp hnd).1
            simp [isEncodeFor, encode_video_call,
              processLoop_encode_absent env inp out n0 rest files1 habs]
          · have hbne : (inPath inp n0 == inPath inp name) = false :=
              beq_eq_false_iff_ne.mpr (fun he => hne (inPath_inj inp n0 name he))
            simpa [isEncodeFor, encode_video_call, hbne]
              using ih files1 (List.nodup_cons.mp hnd).2
        cases hrun : env.run (encode_video_call (inPath inp n0)
            (outPath out n0)) with
        | ok u =>
          cases u
          rw [processLoop_cons_of_step env inp out n0 rest files _ _
            (processFile_encode_ok env inp out n0 files o hm0 hg hrun)]
          simpa using hstep (outPath out n0 :: files)
        | error s =>
          rw [processLoop_cons_of_step env inp out n0 rest files _ _
            (processFile_encode_fail env inp out n0 files o s hm0 hg hrun)]
          simpa using hstep (if env.leftoverOnFail (encode_video_call (inPath inp n0)
            (outPath out n0)) then outPath out n0 :: files else files)

/-! ## Concrete worlds used as test inputs -/

/-- Probe metadata whose only stream is an audio stream: no stream has
declared type "video". -/
def pdNoVideo : ProbeData :=
  { streams := [{ codec_type := "audio", width := 0, height := 0 }],
    duration := 0 }

/-- Probe metadata with a video stream. -/
def pdVideo : ProbeData :=
  { streams := [{ codec_type := "video", width := 1920, height := 1080 }],
    duration := 60 }

/-- A world where every probe succeeds but its metadata has no video stream,
while the transcoder and `os.makedirs` always succeed. -/
def envNoVideo : Env :=
  { probe := fun _ => Except.ok pdNoVideo
    run := fun _ => Except.ok ()
    makedirsResult := Except.ok ()
    leftoverOnFail := fun _ => false }

/-- A world where every external call succeeds and probes find a video
stream. -/
def envAllOk : Env :=
  { probe := fun _ => Except.ok pdVideo
    run := fun _ => Except.ok ()
    makedirsResult := Except.ok ()
    leftoverOnFail := fun _ => false }

/-- A world where probes succeed but every transcoder run fails. -/
def envEncodeFails : Env :=
  { probe := fun _ => Except.ok pdVideo
    run := fun _ => Except.error "ffmpeg exited with error"
    makedirsResult := Except.ok ()
    leftoverOnFail := fun _ => false }

/-! ## C1 -/

/-- C1, counterexample.  The claim says `get_video_info` never raises to its
caller and in particular returns `None` when the metadata contains no stream
of declared type "video".  On probe metadata whose only stream is an audio
stream, the `next()` call of line 11 raises `StopIteration`, which the
`except ffmpeg.Error` clause does not catch: the function raises instead of
returning `None`. -/
theorem get_video_info_no_video_raises :
    get_video_info (Except.ok pdNoVideo) = Except.error PyExc.stopIteration := rfl

/-- C1 (amended): for every input file path, when the external probe call
raises `ffmpeg.Error`, `get_video_info` logs the diagnostic and returns
`None` without raising; but when the probe succeeds and its metadata
contains no stream whose declared type is "video", `get_video_info` raises
`StopIteration` to its caller (the `except ffmpeg.Error` handler does not
catch it). -/
theorem get_video_info_amended (stderr : String) (pd : ProbeData)
    (h : findVideoStream pd.streams = none) :
    get_video_info (Except.error stderr) = Except.ok none ∧
    get_video_info (Except.ok pd) = Except.error PyExc.stopIteration :=
  ⟨rfl, by simp [get_video_info, h]⟩

/-- C1, witness for the amended theorem at a concrete probe error and
concrete no-video metadata. -/
theorem get_video_info_amended_witness :
    get_video_info (Except.error "probe failed") = Except.ok none ∧
    get_video_info (Except.ok pdNoVideo) = Except.error PyExc.stopIteration :=
  get_video_info_amended "probe failed" pdNoVideo (by decide)

/-! ## C2 -/

/-- C2, counterexample.  The claim says every per-file outcome — probe
failure of any kind included — is caught at the file-processing boundary
and never aborts the batch.  With two matching files and probes that
succeed but find no video stream, the run aborts at the first file with an
uncaught `StopIteration`: the second file is never reached, neither skipped
nor probed. -/
theorem process_directory_aborts_on_no_video :
    (process_directory envNoVideo true ["a.mp4", "b.mp4"] "in" "out" []).raised =
      some PyExc.stopIteration ∧
    Event.probeE (inPath "in" "b.mp4") ∉
      (process_directory envNoVideo true ["a.mp4", "b.mp4"] "in" "out" []).events ∧
    Event.skipE (outPath "out" "b.mp4") ∉
      (process_directory envNoVideo true ["a.mp4", "b.mp4"] "in" "out" []).events := by
  decide

/-- C2 (amended): per-file failures signalled as `ffmpeg.Error` — probe
call errors and encoding failures — are caught at the file-processing
boundary and never abort the batch.  Provided every successful probe finds
a video stream (so no file raises `StopIteration`), `process_directory`
processes every matching file to the end of the list: nothing is raised and
every matching file is either skipped or probed; only directory-setup
errors end the run early. -/
theorem process_directory_amended_completes (env : Env) (entries : List String)
    (inp out : String) (files0 : List String)
    (hp : ∀ p, probeSafe env p = true)
    (hm : env.makedirsResult = Except.ok ()) :
    (process_directory env true entries inp out files0).raised = none ∧
    ∀ n ∈ globMp4 entries,
      Event.skipE (outPath out n) ∈
        (process_directory env true entries inp out files0).events ∨
      Event.probeE (inPath inp n) ∈
        (process_directory env true entries inp out files0).events := by
  rw [process_directory_run env entries inp out files0 hm]
  obtain ⟨h1, h2⟩ := processLoop_complete env inp out hp (globMp4 entries) files0
  refine ⟨h1, ?_⟩
  intro n hn
  rcases h2 n hn with h | h
  · exact Or.inl (List.mem_cons_of_mem _ h)
  · exact Or.inr (List.mem_cons_of_mem _ h)

/-- C2, witness for the amended theorem: a concrete run in which every
transcode fails still finishes the list — nothing is raised and the second
file is reached. -/
theorem process_directory_amended_completes_witness :
    (process_directory envEncodeFails true ["a.mp4", "b.mp4"] "in" "out" []).raised =
      none ∧
    (Event.skipE (outPath "out" "b.mp4") ∈
       (process_directory envEncodeFails true ["a.mp4", "b.mp4"] "in" "out" []).events ∨
     Event.probeE (inPath "in" "b.mp4") ∈
       (process_directory envEncodeFails true ["a.mp4", "b.mp4"] "in" "out" []).events) :=
  ⟨(process_directory_amended_completes envEncodeFails ["a.mp4", "b.mp4"]
      "in" "out" [] (fun _ => rfl) rfl).1,
   (process_directory_amended_completes envEncodeFails ["a.mp4", "b.mp4"]
      "in" "out" [] (fun _ => rfl) rfl).2 "b.mp4" (by decide)⟩

/-! ## C3 -/

/-- C3, counterexample.  The claim says that whenever every transcode
invocation succeeds, a run over N matching files with no pre-existing
outputs produces exactly N output files.  In a world where every transcode
invocation succeeds but the probe of the single matching file finds no
video stream, the run aborts before any transcode: it produces zero output
files instead of one (and indeed performs no transcode invocation at
all, so the claim's premise holds vacuously). -/
theorem process_directory_zero_outputs_despite_run_ok :
    (process_directory envNoVideo true ["a.mp4"] "in" "out" []).files = [] ∧
    (process_directory envNoVideo true ["a.mp4"] "in" "out" []).events =
      [Event.mkdirE "out", Event.probeE (inPath "in" "a.mp4")] := by
  decide

/-- C3 (amended): for every input directory whose matching files are
distinct and none of whose outputs pre-exist, if every transcode invocation
succeeds and every probe either fails with `ffmpeg.Error` or finds a video
stream (so no file aborts the run via `StopIteration`), then the run
produces exactly the N output files, each at the output directory joined
with "encoded_" plus the original file name, and raises nothing. -/
theorem process_directory_amended_n_outputs (env : Env) (entries : List String)
    (inp out : String) (files0 : List String)
    (hnd : (globMp4 entries).Nodup)
    (hfresh : ∀ n ∈ globMp4 entries, outPath out n ∉ files0)
    (hp : ∀ p, probeSafe env p = true)
    (hr : ∀ c, env.run c = Except.ok ())
    (hm : env.makedirsResult = Except.ok ()) :
    (process_directory env true entries inp out files0).files =
      ((globMp4 entries).map (fun n => outPath out n)).reverse ++ files0 ∧
    (process_directory env true entries inp out files0).raised = none := by
  rw [process_directory_run env entries inp out files0 hm]
  exact processLoop_fresh_allOk env inp out hp hr (globMp4 entries) files0 hnd hfresh

/-- C3, witness for the amended theorem: an all-success run over two fresh
matching files produces exactly their two outputs. -/
theorem process_directory_amended_n_outputs_witness :
    (process_directory envAllOk true ["b.mp4", "a.mp4"] "in" "out" []).files =
      ["out/encoded_a.mp4", "out/encoded_b.mp4"] ∧
    (process_directory envAllOk true ["b.mp4", "a.mp4"] "in" "out" []).raised =
      none := by
  have h := process_directory_amended_n_outputs envAllOk ["b.mp4", "a.mp4"]
    "in" "out" [] (by decide) (by decide) (fun _ => rfl) (fun _ => rfl) rfl
  exact ⟨by rw [h.1]; decide, h.2⟩

/-! ## C4 -/

/-- C4 (confirmed): idempotence.  After one successful run of
`process_directory` (all probes safe, all transcodes succeed, so in
particular every matching file's output exists afterwards), a second run
over the same input/output pair — under any world whose `os.makedirs`
succeeds — skips all N matching files: its trace is the directory creation
followed by exactly one skip per matching file, it performs zero transcode
invocations and zero probes, changes no files, and raises nothing. -/
theorem process_directory_idempotent (env env2 : Env) (entries : List String)
    (inp out : String) (files0 : List String)
    (hp : ∀ p, probeSafe env p = true)
    (hr : ∀ c, env.run c = Except.ok ())
    (hm : env.makedirsResult = Except.ok ())
    (hm2 : env2.makedirsResult = Except.ok ()) :
    process_directory env2 true entries inp out
        (process_directory env true entries inp out files0).files =
      { events := Event.mkdirE out ::
          (globMp4 entries).map (fun n => Event.skipE (outPath out n)),
        files := (process_directory env true entries inp out files0).files,
        raised := none } := by
  have hall : ∀ n ∈ globMp4 entries,
      outPath out n ∈ (process_directory env true entries inp out files0).files := by
    rw [process_directory_run env entries inp out files0 hm]
    exact fun n hn =>
      (processLoop_allOk env inp out hp hr (globMp4 entries) files0).2 n hn
  rw [process_directory_run env2 entries inp out _ hm2,
    processLoop_allPresent env2 inp out (globMp4 entries) _ hall]

/-- C4, witness: a concrete all-success first run followed by a second run
that only skips. -/
theorem process_directory_idempotent_witness :
    process_directory envAllOk true ["a.mp4"] "in" "out"
        (process_directory envAllOk true ["a.mp4"] "in" "out" []).files =
      { events := [Event.mkdirE "out", Event.skipE (outPath "out" "a.mp4")],
        files := (process_directory envAllOk true ["a.mp4"] "in" "out" []).files,
        raised := none } := by
  rw [process_directory_idempotent envAllOk envAllOk ["a.mp4"] "in" "out" []
    (fun _ => rfl) (fun _ => rfl) rfl rfl]
  decide

/-! ## C5 -/

/-- C5 (confirmed): enumeration selects exactly the immediate children of
the input directory whose names end with ".mp4", by exact character
comparison (hence case-sensitively): entries lying in a subdirectory, with
a differently-cased extension such as ".MP4", or without the ".mp4" ending
are never selected. -/
theorem globMp4_selects_exactly (entries : List String) (e : String) :
    e ∈ globMp4 entries ↔
      e ∈ entries ∧ containsChar e '/' = false ∧ endsWithChars e ".mp4" = true := by
  simp [globMp4, List.mem_filter, Bool.and_eq_true, Bool.not_eq_true', and_assoc]

/-- C5, witness: a ".mp4" file is selected; an uppercase ".MP4" file, a
non-mp4 file and a file inside a subdirectory are not. -/
theorem globMp4_selects_exactly_witness :
    ("clip.mp4" ∈ globMp4 ["clip.mp4", "video.MP4", "notes.txt", "sub/x.mp4"]) ∧
    ("video.MP4" ∉ globMp4 ["clip.mp4", "video.MP4", "notes.txt", "sub/x.mp4"]) ∧
    ("notes.txt" ∉ globMp4 ["clip.mp4", "video.MP4", "notes.txt", "sub/x.mp4"]) ∧
    ("sub/x.mp4" ∉ globMp4 ["clip.mp4", "video.MP4", "notes.txt", "sub/x.mp4"]) :=
  ⟨(globMp4_selects_exactly _ "clip.mp4").mpr ⟨by decide, by decide, by decide⟩,
   fun h => absurd ((globMp4_selects_exactly _ "video.MP4").mp h).2.2 (by decide),
   fun h => absurd ((globMp4_selects_exactly _ "notes.txt").mp h).2.2 (by decide),
   fun h => absurd ((globMp4_selects_exactly _ "sub/x.mp4").mp h).2.1 (by decide)⟩

/-! ## C6 -/

/-- C6 (confirmed): at every transcoder invocation made during a run (the
model is sequential, with no concurrent external modification), the
destination path is absent from the files existing at the moment of the
invocation — the existence check of the per-file loop filters out every
input whose output already exists — so the unconditional-overwrite setting
of the call (which is always on) is never needed. -/
theorem encode_dest_absent (env : Env) (valid : Bool) (entries : List String)
    (inp out : String) (files0 : List String) (c : EncodeCall)
    (fsnap : List String)
    (h : Event.encodeE c fsnap ∈
      (process_directory env valid entries inp out files0).events) :
    c.output_path ∉ fsnap ∧ c.overwrite = true := by
  rcases process_directory_cases env valid entries inp out files0 with hc | hc <;>
    rw [hc] at h
  · simp at h
  · rcases List.mem_cons.mp h with h1 | h1
    · exact Event.noConfusion h1
    · rcases processLoop_events_shape env inp out (globMp4 entries) files0 _ h1 with
        ⟨n, hn, he⟩ | ⟨n, hn, he⟩ | ⟨n, hn, fs2, he, hns⟩
      · exact Event.noConfusion he
      · exact Event.noConfusion he
      · obtain ⟨hcall, hfs⟩ := Event.encodeE.inj he
        subst hcall; subst hfs
        exact ⟨hns, rfl⟩

/-- C6, witness: the transcoder invocation of a concrete run found its
destination absent and carried the overwrite flag. -/
theorem encode_dest_absent_witness :
    (encode_video_call (inPath "in" "a.mp4") (outPath "out" "a.mp4")).output_path ∉
      ([] : List String) ∧
    (encode_video_call (inPath "in" "a.mp4") (outPath "out" "a.mp4")).overwrite =
      true :=
  encode_dest_absent envAllOk true ["a.mp4"] "in" "out" [] _ [] (by decide)

/-! ## C7 -/

/-- C7 (confirmed): every transcoder invocation of every run carries the
same fixed encoding profile — video codec libx264, audio codec aac,
profile "main", level "4.0", preset "slow", constant rate factor 23, audio
bitrate "128k", and "+faststart" container layout — independent of the
input file, the probe result and the rest of the world. -/
theorem encode_profile_fixed (env : Env) (valid : Bool) (entries : List String)
    (inp out : String) (files0 : List String) (c : EncodeCall)
    (fsnap : List String)
    (h : Event.encodeE c fsnap ∈
      (process_directory env valid entries inp out files0).events) :
    c.profile = { vcodec := "libx264", acodec := "aac", profile_v := "main",
                  level_v := "4.0", preset := "slow", crf := 23, b_a := "128k",
                  movflags := "+faststart" } := by
  rcases process_directory_cases env valid entries inp out files0 with hc | hc <;>
    rw [hc] at h
  · simp at h
  · rcases List.mem_cons.mp h with h1 | h1
    · exact Event.noConfusion h1
    · rcases processLoop_events_shape env inp out (globMp4 entries) files0 _ h1 with
        ⟨n, hn, he⟩ | ⟨n, hn, he⟩ | ⟨n, hn, fs2, he, hns⟩
      · exact Event.noConfusion he
      · exact Event.noConfusion he
      · rw [(Event.encodeE.inj he).1]
        rfl

/-- C7, witness: the invocation of a concrete run carries exactly the fixed
profile. -/
theorem encode_profile_fixed_witness :
    (encode_video_call (inPath "in" "b.mp4") (outPath "out" "b.mp4")).profile =
      { vcodec := "libx264", acodec := "aac", profile_v := "main",
        level_v := "4.0", preset := "slow", crf := 23, b_a := "128k",
        movflags := "+faststart" } :=
  encode_profile_fixed envAllOk true ["b.mp4"] "in" "out" [] _ [] (by decide)

/-! ## C8 -/

/-- C8 (confirmed): in every run whose input directory is valid and whose
`os.makedirs` call succeeds, the successful creation of the output
directory is the very first event of the run — hence it happens before any
transcode attempt — and no later event of the run is another directory
creation: the per-file loop never attempts to create the output directory
again. -/
theorem mkdir_once_before_encodes (env : Env) (entries : List String)
    (inp out : String) (files0 : List String)
    (hm : env.makedirsResult = Except.ok ()) :
    ∃ tail, (process_directory env true entries inp out files0).events =
        Event.mkdirE out :: tail ∧
      ∀ p, Event.mkdirE p ∉ tail := by
  rw [process_directory_run env entries inp out files0 hm]
  refine ⟨(processLoop env inp out (globMp4 entries) files0).events, rfl, ?_⟩
  intro p hp2
  rcases processLoop_events_shape env inp out (globMp4 entries) files0 _ hp2 with
    ⟨n, hn, he⟩ | ⟨n, hn, he⟩ | ⟨n, hn, fs2, he, hns⟩
  · exact Event.noConfusion he
  · exact Event.noConfusion he
  · exact Event.noConfusion he

/-- C8, witness at a concrete run. -/
theorem mkdir_once_before_encodes_witness :
    ∃ tail, (process_directory envAllOk true ["a.mp4"] "in" "out" []).events =
        Event.mkdirE "out" :: tail ∧
      ∀ p, Event.mkdirE p ∉ tail :=
  mkdir_once_before_encodes envAllOk ["a.mp4"] "in" "out" [] rfl

/-! ## C9 -/

/-- C9 (confirmed): frame condition of a run.  No file existing at the
start of the run — in the input directory, the output directory, or
anywhere else — is deleted or overwritten: every starting file still exists
afterwards, and every file existing afterwards that was not there at the
start was written by a recorded transcoder invocation at its destination
path, a path that was absent from the filesystem at the moment of the
invocation (its existence check found nothing). -/
theorem run_frame_condition (env : Env) (valid : Bool) (entries : List String)
    (inp out : String) (files0 : List String) :
    (∀ f ∈ files0, f ∈ (process_directory env valid entries inp out files0).files) ∧
    (∀ f ∈ (process_directory env valid entries inp out files0).files, f ∉ files0 →
      ∃ c fsnap, Event.encodeE c fsnap ∈
          (process_directory env valid entries inp out files0).events ∧
        f = c.output_path ∧ f ∉ fsnap) := by
  rcases process_directory_cases env valid entries inp out files0 with hc | hc <;>
    rw [hc]
  · exact ⟨fun f hf => hf, fun f hf hnf => absurd hf hnf⟩
  · constructor
    · exact fun f hf => processLoop_mono env inp out (globMp4 entries) files0 f hf
    · intro f hf hnf
      rcases processLoop_files_sub env inp out (globMp4 entries) files0 f hf with
        h1 | ⟨c, fsnap, hce, he, hns⟩
      · exact absurd h1 hnf
      · exact ⟨c, fsnap, List.mem_cons_of_mem _ hce, he, hns⟩

/-- C9, witness: a file present before a concrete run is still present
after it. -/
theorem run_frame_condition_witness :
    "out/encoded_old.mp4" ∈
      (process_directory envAllOk true ["a.mp4"] "in" "out"
        ["out/encoded_old.mp4"]).files :=
  (run_frame_condition envAllOk true ["a.mp4"] "in" "out"
    ["out/encoded_old.mp4"]).1 "out/encoded_old.mp4" (by decide)

/-! ## C10 -/

/-- C10 (confirmed): for every enumerated input file of a run over distinct
matching names, the transcoder is invoked at most once — there is no retry
after a failure — and a file whose output path already exists at the start
of the run triggers no external call at all: it is neither probed nor
transcoded. -/
theorem encode_at_most_once_skip_silent (env : Env) (valid : Bool)
    (entries : List String) (inp out : String) (files0 : List String)
    (name : String) (hnd : (globMp4 entries).Nodup) :
    (((process_directory env valid entries inp out files0).events.filter
        (isEncodeFor inp name)).length ≤ 1) ∧
    (outPath out name ∈ files0 →
      Event.probeE (inPath inp name) ∉
        (process_directory env valid entries inp out files0).events ∧
      ∀ c fsnap, Event.encodeE c fsnap ∈
          (process_directory env valid entries inp out files0).events →
        c.input_path ≠ inPath inp name) := by
  rcases process_directory_cases env valid entries inp out files0 with hc | hc <;>
    rw [hc]
  · exact ⟨by simp, fun _ => ⟨by simp, by simp⟩⟩
  · constructor
    · simpa [isEncodeFor] using
        processLoop_encode_once env inp out name (globMp4 entries) files0 hnd
    · intro hmem
      obtain ⟨h1, h2⟩ :=
        processLoop_skip_no_calls env inp out name (globMp4 entries) files0 hmem
      constructor
      · intro hin
        rcases List.mem_cons.mp hin with he | he
        · exact Event.noConfusion he
        · exact h1 he
      · intro c fsnap hin
        rcases List.mem_cons.mp hin with he | he
        · exact Event.noConfusion he
        · exact h2 c fsnap he

/-- C10, witness: in a concrete run whose single matching file already has
its output, that file is not probed. -/
theorem encode_at_most_once_skip_silent_witness :
    Event.probeE (inPath "in" "a.mp4") ∉
      (process_directory envAllOk true ["a.mp4"] "in" "out"
        [outPath "out" "a.mp4"]).events :=
  ((encode_at_most_once_skip_silent envAllOk true ["a.mp4"] "in" "out"
      [outPath "out" "a.mp4"] "a.mp4" (by decide)).2 (by decide)).1

end Transcoding
